import Mathlib

/-!
# Verification of the csv-merge core (shallow embedding)

This file embeds the core merge-and-reconcile logic of the csv-merge tool
(`src/utils.ts`, `src/merger.ts`) as executable Lean definitions and proves
properties of them.

Modelling conventions:
* A CSV record (a JavaScript object produced by the csv reader) is an
  insertion-ordered association list `Rec := List (String × String)` with
  unique keys; `alookup` is first-match lookup, mirroring JS property access.
* JS object-literal update (`obj[k] = v`, and spread `{a, ...b}`) is
  `objInsert` / `objExtend`: an existing key keeps its position and gets the
  new value, a fresh key is appended.
* File I/O is modelled by passing file contents in: a `CsvFile` carries the
  results the external reader would produce (`headers`, `records`), each an
  `Except` because the reader can fail; a thrown JS `Error` is `Except.error`
  carrying the message string.
-/

set_option maxHeartbeats 1600000

namespace CsvMerge

/-- A CSV record: insertion-ordered map from column name to value. -/
abbrev Rec := List (String × String)

/-- First-match association-list lookup (JS property access on plain data). -/
def alookup {α : Type} : List (String × α) → String → Option α
  | [], _ => none
  | (k, v) :: ps, key => if k = key then some v else alookup ps key

/-- `record[column] || ""` : missing (and empty) values become `""`. -/
def getD (r : Rec) (k : String) : String := (alookup r k).getD ""

/-- Key-presence test (`column in record` on plain data). -/
def hasKey (r : Rec) (k : String) : Bool := (alookup r k).isSome

/-- JS object assignment `obj[k] = v`: update in place if the key exists
(keeping its position), otherwise append the new binding at the end. -/
def objInsert : Rec → String → String → Rec
  | [], k, v => [(k, v)]
  | p :: ps, k, v => if p.1 = k then (k, v) :: ps else p :: objInsert ps k v

/-- JS object spread `{...base, ...ext}` restricted to our use: assign every
binding of `ext`, in order, into `base`. Later bindings win on clashes. -/
def objExtend (base ext : Rec) : Rec :=
  ext.foldl (fun acc p => objInsert acc p.1 p.2) base

/-- Whitespace as JavaScript's `String.prototype.trim` sees it
(the characters relevant to CSV cell values). -/
def isJsSpace (c : Char) : Bool :=
  c = ' ' ∨ c = '\t' ∨ c = '\n' ∨ c = '\r' ∨ c = '\x0b' ∨ c = '\x0c'

/-- `value.trim() === ""`: the string is blank / whitespace-only. -/
def isBlank (s : String) : Bool := s.data.all isJsSpace

/-- `basename.indexOf("_")` (as an `Option` instead of `-1`). -/
def idxOfUnderscore : List Char → Option Nat
  | [] => none
  | c :: cs => if c = '_' then some 0 else (idxOfUnderscore cs).map (· + 1)

/-- Node `path.basename` step 1: ignore trailing path separators. -/
def dropTrailingSlashes (l : List Char) : List Char :=
  (l.reverse.dropWhile (· = '/')).reverse

/-- Node `path.basename` step 2: keep the part after the last separator. -/
def afterLastSlash (l : List Char) : List Char :=
  (l.reverse.takeWhile (fun c => ¬ (c = '/'))).reverse

/-- `String.prototype.toLowerCase` / `String.toLower`, computed on the
character list (so that concrete instances evaluate). -/
def strToLower (s : String) : String := ⟨s.data.map Char.toLower⟩

/-- `ext.length <= b.length && b.endsWith(ext)` on the character lists. -/
def strEndsWith (b ext : String) : Bool :=
  decide (ext.data.length ≤ b.data.length) &&
    decide (b.data.drop (b.data.length - ext.data.length) = ext.data)

/-- Node `path.basename(p, ext)`: last path component, with `ext` stripped
when it is a proper suffix of that component. -/
def nodeBasename (p ext : String) : String :=
  let base : String := ⟨afterLastSlash (dropTrailingSlashes p.data)⟩
  if base ≠ ext ∧ strEndsWith base ext then
    ⟨base.data.take (base.data.length - ext.data.length)⟩
  else base

/-- `path.basename(filename, ".csv")` as used by `extractEnterprise`. -/
def extractBasename (filename : String) : String := nodeBasename filename ".csv"

/-- `ENTERPRISE_MAPPING` from `src/utils.ts`. -/
def enterpriseMapping : List (String × String) :=
  [("ghec", "GHEC"), ("ghec-emu", "GHEC-EMU"), ("ghes", "GHES")]

/-- Message thrown when the basename has no `_` separator. -/
def invalidFmtMsg (filename : String) : String :=
  "Invalid filename format: " ++ filename ++
    ". Expected format: enterprise_org_data.csv"

/-- Message thrown when the lowercased part before the first `_` is not a
key of `enterpriseMapping`. -/
def unknownPfxMsg (p filename : String) : String :=
  "Unknown enterprise prefix: " ++ p ++ " in file " ++ filename

/-- `extractEnterprise` from `src/utils.ts`: derive the provenance tag from a
filename, or fail with one of two distinct error messages. -/
def extractEnterprise (filename : String) : Except String String :=
  let basename := extractBasename filename
  match idxOfUnderscore basename.data with
  | none => .error (invalidFmtMsg filename)
  | some i =>
    let pfx := strToLower (String.mk (basename.data.take i))
    match alookup enterpriseMapping pfx with
    | some e => .ok e
    | none => .error (unknownPfxMsg pfx filename)

/-- Column configuration (`ColumnConfig` in `src/types.ts`); the optional
fields mirror `columnsToRemove?` and `duplicateCheckColumns?`. -/
structure ColumnConfig where
  columns : List String
  columnsToRemove : Option (List String) := none
  duplicateCheckColumns : Option (List String) := none
deriving Repr, DecidableEq

/-- `columnConfig.columnsToRemove || []`. -/
def removalList (cfg : ColumnConfig) : List String := cfg.columnsToRemove.getD []

/-- `filterRecord` from `src/merger.ts`: rebuild the record from its entries,
skipping the keys marked for removal. -/
def filterRecord (record : Rec) (columnsToRemove : List String) : Rec :=
  record.foldl
    (fun acc p => if p.1 ∈ columnsToRemove then acc else acc ++ [p]) []

/-- The per-record transform inside `mergeCsvFiles`:
`{ Enterprise: enterprise, ...filterRecord(record, columnsToRemove) }`. -/
def transformRecord (ent : String) (columnsToRemove : List String)
    (record : Rec) : Rec :=
  objExtend [("Enterprise", ent)] (filterRecord record columnsToRemove)

/-- Headers that are in neither `config.columns` nor `columnsToRemove`
(original header order), from `validateAndFilterColumns`. -/
def unexpectedColumnsOf (headers : List String) (cfg : ColumnConfig) :
    List String :=
  headers.filter (fun h => decide (h ∉ cfg.columns ∧ h ∉ removalList cfg))

/-- The single warning string emitted for a file with unexpected columns. -/
def unexpectedColsMsg (filename : String) (cols : List String) : String :=
  "⚠️  File \"" ++ filename ++
    "\" contains unexpected columns not in configuration: [" ++
    String.intercalate ", " cols ++ "]"

/-- `validateAndFilterColumns` from `src/merger.ts`: returns the headers with
removed columns filtered out, and the warning list (the removed-columns note
is only logged to the console and is never part of the warnings). -/
def validateAndFilterColumns (filePath : String) (headers : List String)
    (cfg : ColumnConfig) : List String × List String :=
  let u := unexpectedColumnsOf headers cfg
  let warnings := if u.isEmpty then [] else [unexpectedColsMsg filePath u]
  let filteredHeaders :=
    headers.filter (fun h => decide (h ∉ removalList cfg))
  (filteredHeaders, warnings)

/-- One input file, with the results the external reader would produce for
it: `headers` models `getCsvHeaders`, `records` models `readCsvFile`; an
`Except.error` is the rejection message of the corresponding promise. -/
structure CsvFile where
  name : String
  headers : Except String (List String)
  records : Except String (List Rec)
deriving Repr

/-- An input directory: its path, whether it exists, and its listing. -/
structure InputDir where
  path : String
  present : Bool
  files : List CsvFile
deriving Repr

/-- `ProcessingResult` from `src/types.ts`. -/
structure ProcessingResult where
  success : Bool
  records : List Rec
  totalFiles : Nat
  totalRecords : Nat
  errors : List String
deriving Repr, DecidableEq

/-- The `.csv` listing filter inside `getCsvFiles`. -/
def csvListing (d : InputDir) : List CsvFile :=
  d.files.filter (fun f => strEndsWith (strToLower f.name) ".csv")

/-- `getCsvFiles` from `src/utils.ts`: error when the directory is missing or
contains no `.csv` files, otherwise the filtered listing. -/
def getCsvFiles (d : InputDir) : Except String (List CsvFile) :=
  if ¬ d.present then
    .error ("Input directory does not exist: " ++ d.path)
  else if (csvListing d).isEmpty then
    .error ("No CSV files found in directory: " ++ d.path)
  else .ok (csvListing d)

/-- `Error processing file ...` wrapper used in `mergeCsvFiles`. -/
def procErrMsg (name cause : String) : String :=
  "Error processing file " ++ name ++ ": " ++ cause

/-- One iteration of the `for (const filePath of csvFiles)` loop of
`mergeCsvFiles`. The boolean is `true` when the iteration threw (which aborts
the loop); the returned accumulator reflects all pushes that happened before
the throw (warnings already pushed stay, and the catch block pushes the
wrapped error message). -/
def stepFile (cfg : ColumnConfig) (acc : ProcessingResult) (f : CsvFile) :
    ProcessingResult × Bool :=
  match extractEnterprise f.name with
  | .error e => ({ acc with errors := acc.errors ++ [procErrMsg f.name e] }, true)
  | .ok ent =>
    match f.headers with
    | .error e =>
      ({ acc with errors := acc.errors ++ [procErrMsg f.name e] }, true)
    | .ok hs =>
      let vw := validateAndFilterColumns f.name hs cfg
      let errs := acc.errors ++ vw.2
      match f.records with
      | .error e =>
        ({ acc with errors := errs ++ [procErrMsg f.name e] }, true)
      | .ok recs =>
        ({ acc with
            records :=
              acc.records ++ recs.map (transformRecord ent (removalList cfg)),
            totalRecords := acc.totalRecords + recs.length,
            errors := errs }, false)

/-- The whole per-file loop: process files in order, stopping at the first
one that throws. -/
def processAll (cfg : ColumnConfig) :
    ProcessingResult → List CsvFile → ProcessingResult × Bool
  | acc, [] => (acc, false)
  | acc, f :: fs =>
    match stepFile cfg acc f with
    | (acc', true) => (acc', true)
    | (acc', false) => processAll cfg acc' fs

/-- `mergeCsvFiles` from `src/merger.ts`. The outer `catch` sets
`success = false`; its duplicate-message guard never double-pushes because
the loop body already pushed the same wrapped message before rethrowing. -/
def mergeCsvFiles (d : InputDir) (cfg : ColumnConfig) : ProcessingResult :=
  match getCsvFiles d with
  | .error e =>
    { success := false, records := [], totalFiles := 0, totalRecords := 0,
      errors := [e] }
  | .ok csvFiles =>
    let init : ProcessingResult :=
      { success := false, records := [], totalFiles := csvFiles.length,
        totalRecords := 0, errors := [] }
    match processAll cfg init csvFiles with
    | (res, true) => { res with success := false }
    | (res, false) => { res with success := true }

/-- `["Enterprise", ...columnConfig.columns]`. -/
def orderedColumns (cfg : ColumnConfig) : List String :=
  "Enterprise" :: cfg.columns

/-- The per-record body of `orderRecords`: start from `{ Enterprise: "" }`
and assign `record[column] || ""` for each ordered column. -/
def orderRecord (cfg : ColumnConfig) (record : Rec) : Rec :=
  (orderedColumns cfg).foldl
    (fun acc c => objInsert acc c (getD record c)) [("Enterprise", "")]

/-- `orderRecords` from `src/merger.ts`. -/
def orderRecords (records : List Rec) (cfg : ColumnConfig) : List Rec :=
  records.map (orderRecord cfg)

/-- One reported duplicate value of a checked column. -/
structure DupEntry where
  value : String
  count : Nat
  rowNumbers : List Nat
deriving Repr, DecidableEq

/-- `DuplicateCheckResult` from `src/types.ts`. -/
structure DuplicateCheckResult where
  column : String
  duplicateValues : List DupEntry
deriving Repr, DecidableEq

/-- The insertion-ordered `valueMap`: value ↦ (count, rowNumbers). -/
abbrev VMap := List (String × Nat × List Nat)

/-- `valueMap` update for one non-blank value: existing entries keep their
position and gain one occurrence, fresh values are appended. -/
def vmapUpdate : VMap → String → Nat → VMap
  | [], v, row => [(v, 1, [row])]
  | (k, c, rows) :: rest, v, row =>
    if k = v then (k, c + 1, rows ++ [row]) :: rest
    else (k, c, rows) :: vmapUpdate rest v row

/-- The `records.forEach` scan of `checkForDuplicates`: `idx` is the 0-based
record index, rows are reported as `idx + 2` (1-based plus header row);
blank values are skipped. -/
def buildValueMap (col : String) : List Rec → Nat → VMap → VMap
  | [], _, m => m
  | r :: rs, idx, m =>
    let value := getD r col
    if isBlank value then buildValueMap col rs (idx + 1) m
    else buildValueMap col rs (idx + 1) (vmapUpdate m value (idx + 2))

/-- Stable insertion (descending by `count`) used to model the stable
JS `sort((a, b) => b.count - a.count)`. -/
def insertByCount (e : DupEntry) : List DupEntry → List DupEntry
  | [] => [e]
  | x :: xs => if x.count ≤ e.count then e :: x :: xs else x :: insertByCount e xs

/-- Stable sort by occurrence count, descending. -/
def sortByCountDesc (l : List DupEntry) : List DupEntry :=
  l.foldr insertByCount []

/-- The duplicate list computed for one existing column: keep map entries
with `count > 1` (insertion order = first-seen order), then sort. -/
def checkColumn (records : List Rec) (col : String) : List DupEntry :=
  sortByCountDesc
    (((buildValueMap col records 0 []).filter (fun p => decide (1 < p.2.1))).map
      (fun p => ⟨p.1, p.2.1, p.2.2⟩))

/-- `records.length > 0 && column in records[0]`: column existence is decided
by the first record alone. -/
def columnExists (records : List Rec) (col : String) : Bool :=
  match records with
  | [] => false
  | r :: _ => hasKey r col

/-- `checkForDuplicates` from `src/merger.ts`: one result per checked column
that exists; missing columns are skipped (console notice only). -/
def checkForDuplicates (records : List Rec) :
    List String → List DuplicateCheckResult
  | [] => []
  | col :: rest =>
    if columnExists records col then
      ⟨col, checkColumn records col⟩ :: checkForDuplicates records rest
    else checkForDuplicates records rest

/-- `error.includes("⚠️")`, the warning marker test in `processCsvMerge`. -/
def containsWarnSign (s : String) : Bool := (s.splitOn "⚠️").length > 1

/-- `processCsvMerge` from `src/merger.ts`, with the configuration already
loaded and file I/O abstracted: `.ok (orderedRecords, orderedColumns)` is the
output handed to `writeCsvFile`, `.error` is the thrown failure (in which
case nothing is written). -/
def processCsvMerge (d : InputDir) (cfg : ColumnConfig) :
    Except String (List Rec × List String) :=
  let result := mergeCsvFiles d cfg
  if ¬ result.success then
    .error ("Merge failed: " ++ String.intercalate ", " result.errors)
  else
    let actualErrors := result.errors.filter (fun e => ¬ containsWarnSign e)
    if ¬ actualErrors.isEmpty then
      .error ("Merge failed: " ++ String.intercalate ", " actualErrors)
    else
      .ok (orderRecords result.records cfg, orderedColumns cfg)

/-! ## Specification-side notions (used to state the claims) -/

/-- The value of `col` in record `r` as the duplicate scan sees it. -/
def colValue (col : String) (r : Rec) : String := getD r col

/-- Reported row numbers (index + 2) of the records whose `col` value is the
non-blank string `v`, scanning from 0-based index `idx`. -/
def occRowsFrom (col v : String) : List Rec → Nat → List Nat
  | [], _ => []
  | r :: rs, idx =>
    if isBlank (colValue col r) = false ∧ colValue col r = v then
      (idx + 2) :: occRowsFrom col v rs (idx + 1)
    else occRowsFrom col v rs (idx + 1)

/-- Row numbers of the non-blank occurrences of `v` in column `col`. -/
def occRows (records : List Rec) (col v : String) : List Nat :=
  occRowsFrom col v records 0

/-- Number of non-blank occurrences of `v` in column `col`. -/
def occCount (records : List Rec) (col v : String) : Nat :=
  (occRows records col v).length

/-- The non-blank values of column `col`, in record order. -/
def seenVals (col : String) (records : List Rec) : List String :=
  (records.map (colValue col)).filter (fun v => ¬ isBlank v)

/-- Distinct elements in first-seen order (helper accumulator form). -/
def firstSeenAux : List String → List String → List String
  | [], _ => []
  | v :: vs, seen =>
    if v ∈ seen then firstSeenAux vs seen else v :: firstSeenAux vs (v :: seen)

/-- Distinct elements of a list, in order of first occurrence. -/
def firstSeen (l : List String) : List String := firstSeenAux l []

/-- The duplicate values of a column, in first-seen order. -/
def specDupValues (records : List Rec) (col : String) : List String :=
  (firstSeen (seenVals col records)).filter
    (fun v => decide (1 < occCount records col v))

/-! ## Association-list lemmas -/

theorem alookup_cons (k : String) (v : α) (ps : List (String × α)) (key : String) :
    alookup ((k, v) :: ps) key = if k = key then some v else alookup ps key := rfl

theorem alookup_isSome_iff_mem_keys (l : List (String × α)) (k : String) :
    (alookup l k).isSome = true ↔ k ∈ l.map Prod.fst := by
  induction l with
  | nil => simp [alookup]
  | cons p ps ih =>
    obtain ⟨k', v⟩ := p
    rw [alookup_cons]
    by_cases h : k' = k
    · subst h; simp
    · rw [if_neg h, List.map_cons, List.mem_cons]
      constructor
      · intro hs
        exact Or.inr (ih.mp hs)
      · intro hor
        rcases hor with he | hm
        · exact absurd he.symm h
        · exact ih.mpr hm

theorem alookup_eq_none_of_not_mem_keys {l : List (String × α)} {k : String}
    (h : k ∉ l.map Prod.fst) : alookup l k = none := by
  cases hl : alookup l k with
  | none => rfl
  | some v =>
    exact absurd ((alookup_isSome_iff_mem_keys l k).mp (by simp [hl])) h

theorem alookup_objInsert_self (r : Rec) (k v : String) :
    alookup (objInsert r k v) k = some v := by
  induction r with
  | nil => simp [objInsert, alookup]
  | cons p ps ih =>
    by_cases h : p.1 = k <;> simp [objInsert, alookup, h, ih]

theorem alookup_objInsert_ne (r : Rec) {k k' : String} (v : String)
    (h : k' ≠ k) : alookup (objInsert r k v) k' = alookup r k' := by
  induction r with
  | nil => simp [objInsert, alookup, Ne.symm h]
  | cons p ps ih =>
    by_cases hp : p.1 = k
    · subst hp
      simp [objInsert, alookup, Ne.symm h]
    · simp only [objInsert, if_neg hp]
      by_cases hq : p.1 = k' <;> simp [alookup, hq, ih]

theorem objExtend_nil (base : Rec) : objExtend base [] = base := rfl

theorem objExtend_cons (base : Rec) (p : String × String) (ps : Rec) :
    objExtend base (p :: ps) = objExtend (objInsert base p.1 p.2) ps := rfl

theorem alookup_objExtend :
    ∀ (ext : Rec), (ext.map Prod.fst).Nodup →
      ∀ (base : Rec) (k : String),
        alookup (objExtend base ext) k =
          ((alookup ext k).map some).getD (alookup base k) := by
  intro ext
  induction ext with
  | nil => intro _ base k; simp [objExtend_nil, alookup]
  | cons p ps ih =>
    intro hnd base k
    obtain ⟨k₀, v₀⟩ := p
    simp only [List.map_cons, List.nodup_cons] at hnd
    rw [objExtend_cons]
    by_cases h : k₀ = k
    · subst h
      rw [ih hnd.2, alookup_eq_none_of_not_mem_keys hnd.1,
        alookup_cons, if_pos rfl]
      simp [alookup_objInsert_self]
    · rw [ih hnd.2, alookup_cons, if_neg h,
        alookup_objInsert_ne _ _ (Ne.symm h)]

/-! ## `filterRecord` lemmas -/

theorem filterRecord_foldl (r : Rec) (cs : List String) :
    ∀ acc : Rec,
      r.foldl (fun acc p => if p.1 ∈ cs then acc else acc ++ [p]) acc =
        acc ++ r.filter (fun p => decide (p.1 ∉ cs)) := by
  induction r with
  | nil => intro acc; simp
  | cons p ps ih =>
    intro acc
    rw [List.foldl_cons, List.filter_cons]
    by_cases h : p.1 ∈ cs
    · rw [if_pos h, ih acc, decide_eq_false (by simpa using h)]
      simp
    · rw [if_neg h, ih (acc ++ [p]), decide_eq_true (by simpa using h)]
      simp

theorem filterRecord_eq_filter (r : Rec) (cs : List String) :
    filterRecord r cs = r.filter (fun p => decide (p.1 ∉ cs)) := by
  simpa using filterRecord_foldl r cs []

theorem alookup_filterRecord_of_not_mem (r : Rec) {cs : List String}
    {k : String} (h : k ∉ cs) :
    alookup (filterRecord r cs) k = alookup r k := by
  rw [filterRecord_eq_filter]
  induction r with
  | nil => rfl
  | cons p ps ih =>
    rw [List.filter_cons]
    by_cases hmem : p.1 ∈ cs
    · have hne : p.1 ≠ k := fun he => h (he ▸ hmem)
      rw [decide_eq_false (by simpa using hmem), if_neg (by simp),
        alookup_cons, if_neg hne, ih]
    · rw [decide_eq_true (by simpa using hmem), if_pos rfl, alookup_cons,
        alookup_cons, ih]

theorem keys_filterRecord_nodup {r : Rec} (cs : List String)
    (h : (r.map Prod.fst).Nodup) :
    ((filterRecord r cs).map Prod.fst).Nodup := by
  rw [filterRecord_eq_filter]
  exact ((List.filter_sublist r).map Prod.fst).nodup h

/-! ## Claim C1 (corrected): the source record's own `Enterprise` field,
when it survives exclusion filtering, overwrites the provenance tag. -/

/-- C1 counterexample: for the source record `{Enterprise: "SRC"}` (a record
whose `Enterprise` column is not excluded), the transformed record produced
inside `mergeCsvFiles` carries the source value `"SRC"`, not the provenance
tag `"GHEC"` — the claim "the provenance tag overwrites any same-named
source column" is false. -/
theorem transform_keeps_source_enterprise_cex :
    alookup (transformRecord "GHEC" [] [("Enterprise", "SRC")]) "Enterprise"
      ≠ some "GHEC" := by decide

/-- C1 (amended): in the transform `{Enterprise: tag, ...filtered}` the
spread comes second, so for a record with unique keys the transformed
record's `Enterprise` field equals the source record's surviving `Enterprise`
value when there is one, and the provenance tag only when the filtered
record lacks that field. -/
theorem transformRecord_enterprise_value (ent : String) (cs : List String)
    (r : Rec) (hnd : (r.map Prod.fst).Nodup) :
    alookup (transformRecord ent cs r) "Enterprise" =
      some ((alookup (filterRecord r cs) "Enterprise").getD ent) := by
  rw [transformRecord,
    alookup_objExtend _ (keys_filterRecord_nodup cs hnd)]
  cases h : alookup (filterRecord r cs) "Enterprise" <;>
    simp [h, alookup_cons]

/-- C1 witness: the amended statement applied at the concrete record
`{Enterprise: "SRC"}` with tag `"GHEC"` and no exclusions: the transformed
record keeps `"SRC"`. -/
theorem transformRecord_enterprise_value_witness :
    (([("Enterprise", "SRC")] : Rec).map Prod.fst).Nodup ∧
      alookup (transformRecord "GHEC" [] [("Enterprise", "SRC")]) "Enterprise"
        = some ((alookup (filterRecord [("Enterprise", "SRC")] [])
            "Enterprise").getD "GHEC") :=
  ⟨by decide, transformRecord_enterprise_value "GHEC" [] _ (by decide)⟩

/-! ## Claim C9: `filterRecord` keeps exactly the non-excluded fields,
in order, with their original values. -/

/-- C9: `filterRecord` returns the sub-record of exactly those fields whose
key is not excluded: it equals the order-preserving `filter` of the input
(a sublist, so relative order is kept), a field belongs to the output iff it
belongs to the input and its key is not excluded, and every non-excluded key
keeps its original looked-up value. -/
theorem filterRecord_spec (r : Rec) (cs : List String) :
    filterRecord r cs = r.filter (fun p => decide (p.1 ∉ cs)) ∧
      List.Sublist (filterRecord r cs) r ∧
      (∀ p : String × String, p ∈ filterRecord r cs ↔ p ∈ r ∧ p.1 ∉ cs) ∧
      (∀ k, k ∉ cs → alookup (filterRecord r cs) k = alookup r k) := by
  refine ⟨filterRecord_eq_filter r cs, ?_, ?_, ?_⟩
  · rw [filterRecord_eq_filter]; exact List.filter_sublist r
  · intro p
    rw [filterRecord_eq_filter, List.mem_filter]
    simp
  · intro k hk
    exact alookup_filterRecord_of_not_mem r hk

/-- C9 witness: the spec applied at a concrete record and exclusion list. -/
theorem filterRecord_spec_witness :
    filterRecord [("A", "1"), ("B", "2"), ("C", "3")] ["B"] =
        ([("A", "1"), ("B", "2"), ("C", "3")] : Rec).filter
          (fun p => decide (p.1 ∉ ["B"])) ∧
      (("C", "3") ∈ filterRecord [("A", "1"), ("B", "2"), ("C", "3")] ["B"] ↔
        ("C", "3") ∈ ([("A", "1"), ("B", "2"), ("C", "3")] : Rec) ∧
          "C" ∉ ["B"]) ∧
      "A" ∉ ["B"] ∧
      alookup (filterRecord [("A", "1"), ("B", "2"), ("C", "3")] ["B"]) "A" =
        alookup [("A", "1"), ("B", "2"), ("C", "3")] "A" := by
  obtain ⟨h1, _, h3, h4⟩ :=
    filterRecord_spec [("A", "1"), ("B", "2"), ("C", "3")] ["B"]
  exact ⟨h1, h3 ("C", "3"), by decide, h4 "A" (by decide)⟩

/-! ## `orderRecords` lemmas -/

theorem objInsert_of_not_mem_keys {r : Rec} {k : String} (v : String)
    (h : k ∉ r.map Prod.fst) : objInsert r k v = r ++ [(k, v)] := by
  induction r with
  | nil => rfl
  | cons p ps ih =>
    simp only [List.map_cons, List.mem_cons] at h
    push_neg at h
    rw [objInsert, if_neg (fun he => h.1 he.symm), ih h.2, List.cons_append]

theorem foldl_objInsert_fresh (f : String → String) :
    ∀ (cols : List String) (acc : Rec), cols.Nodup →
      (∀ c ∈ cols, c ∉ acc.map Prod.fst) →
      cols.foldl (fun a c => objInsert a c (f c)) acc =
        acc ++ cols.map (fun c => (c, f c)) := by
  intro cols
  induction cols with
  | nil => intro acc _ _; simp
  | cons c cs ih =>
    intro acc hnd hfresh
    rw [List.foldl_cons,
      objInsert_of_not_mem_keys (f c) (hfresh c (List.mem_cons_self c cs)),
      ih _ (List.nodup_cons.mp hnd).2, List.map_cons, List.append_assoc]
    · rfl
    · intro c' hc'
      rw [List.map_append]
      simp only [List.mem_append, List.map_cons, List.map_nil,
        List.mem_singleton, not_or]
      refine ⟨hfresh c' (List.mem_cons_of_mem c hc'), fun he => ?_⟩
      exact (List.nodup_cons.mp hnd).1 (he ▸ hc')

/-- With unique canonical columns not containing `"Enterprise"`,
`orderRecord` is the explicit association list
`[("Enterprise", v), (c₁, v₁), …]` in configured order. -/
theorem orderRecord_eq (cfg : ColumnConfig) (r : Rec)
    (hnd : cfg.columns.Nodup) (hent : "Enterprise" ∉ cfg.columns) :
    orderRecord cfg r =
      ("Enterprise", getD r "Enterprise") ::
        cfg.columns.map (fun c => (c, getD r c)) := by
  rw [orderRecord, orderedColumns, List.foldl_cons]
  have h1 : objInsert [("Enterprise", "")] "Enterprise" (getD r "Enterprise")
      = [("Enterprise", getD r "Enterprise")] := by
    simp [objInsert]
  rw [h1, foldl_objInsert_fresh (getD r) cfg.columns _ hnd]
  · rfl
  · intro c hc
    simp only [List.map_cons, List.map_nil, List.mem_singleton]
    exact fun he => hent (he ▸ hc)

theorem alookup_map_pairs (f : String → String) (k : String) :
    ∀ cols : List String,
      alookup (cols.map fun c => (c, f c)) k =
        if k ∈ cols then some (f k) else none := by
  intro cols
  induction cols with
  | nil => simp [alookup]
  | cons c cs ih =>
    rw [List.map_cons, alookup_cons]
    by_cases h : c = k
    · subst h; simp
    · rw [if_neg h, ih]
      simp only [List.mem_cons]
      by_cases hm : k ∈ cs
      · rw [if_pos hm, if_pos (Or.inr hm)]
      · rw [if_neg hm, if_neg (fun hor => hor.elim (fun he => h he.symm) hm)]

theorem alookup_orderRecord (cfg : ColumnConfig) (r : Rec)
    (hnd : cfg.columns.Nodup) (hent : "Enterprise" ∉ cfg.columns)
    (c : String) :
    alookup (orderRecord cfg r) c =
      if c ∈ orderedColumns cfg then some (getD r c) else none := by
  rw [orderRecord_eq cfg r hnd hent, alookup_cons, orderedColumns]
  by_cases h : "Enterprise" = c
  · subst h; simp
  · rw [if_neg h, alookup_map_pairs]
    simp only [List.mem_cons]
    by_cases hm : c ∈ cfg.columns
    · rw [if_pos hm, if_pos (Or.inr hm)]
    · rw [if_neg hm, if_neg (fun hor => hor.elim (fun he => h he.symm) hm)]

/-! ## Claim C3: the shape of ordered output records -/

/-- C3: for a config whose canonical columns are unique and do not contain
`"Enterprise"`, every record produced by `orderRecords` has key sequence
exactly `"Enterprise" :: config.columns` (hence `columns.length + 1`
fields), each of those keys holds `record[key] || ""` (so a key absent from
the source maps to `""`), and any other key is absent from the output. -/
theorem orderRecords_shape (records : List Rec) (cfg : ColumnConfig)
    (hnd : cfg.columns.Nodup) (hent : "Enterprise" ∉ cfg.columns) :
    orderRecords records cfg = records.map (orderRecord cfg) ∧
      ∀ r : Rec,
        (orderRecord cfg r).map Prod.fst = "Enterprise" :: cfg.columns ∧
        (orderRecord cfg r).length = cfg.columns.length + 1 ∧
        (∀ c ∈ orderedColumns cfg,
          alookup (orderRecord cfg r) c = some (getD r c)) ∧
        (∀ c ∈ orderedColumns cfg, alookup r c = none →
          alookup (orderRecord cfg r) c = some "") ∧
        (∀ c, c ∉ orderedColumns cfg → alookup (orderRecord cfg r) c = none) := by
  refine ⟨rfl, fun r => ⟨?_, ?_, ?_, ?_, ?_⟩⟩
  · rw [orderRecord_eq cfg r hnd hent]
    simp [Function.comp_def]
  · rw [orderRecord_eq cfg r hnd hent, List.length_cons, List.length_map]
  · intro c hc
    rw [alookup_orderRecord cfg r hnd hent, if_pos hc]
  · intro c hc habs
    rw [alookup_orderRecord cfg r hnd hent, if_pos hc, getD, habs]
    rfl
  · intro c hc
    rw [alookup_orderRecord cfg r hnd hent, if_neg hc]

/-- C3 witness: the shape statement applied to a concrete record that has an
extra column (`"Z"`, dropped) and a missing canonical column (`"B"`,
defaulted to `""`). -/
theorem orderRecords_shape_witness :
    (["A", "B"] : List String).Nodup ∧ "Enterprise" ∉ (["A", "B"] : List String) ∧
      (orderRecord ⟨["A", "B"], none, none⟩ [("Z", "z"), ("A", "a")]).map
          Prod.fst = "Enterprise" :: ["A", "B"] ∧
      alookup (orderRecord ⟨["A", "B"], none, none⟩ [("Z", "z"), ("A", "a")])
          "B" = some "" ∧
      alookup (orderRecord ⟨["A", "B"], none, none⟩ [("Z", "z"), ("A", "a")])
          "Z" = none := by
  obtain ⟨-, hall⟩ :=
    orderRecords_shape [] ⟨["A", "B"], none, none⟩ (by decide) (by decide)
  obtain ⟨h1, -, -, h4, h5⟩ := hall [("Z", "z"), ("A", "a")]
  exact ⟨by decide, by decide, h1, h4 "B" (by decide) (by decide),
    h5 "Z" (by decide)⟩

/-! ## Claim C8: `orderRecords` is idempotent -/

/-- C8: applying `orderRecords` to its own output (for a well-formed config:
unique canonical columns without `"Enterprise"`) gives the same result. -/
theorem orderRecords_idempotent (records : List Rec) (cfg : ColumnConfig)
    (hnd : cfg.columns.Nodup) (hent : "Enterprise" ∉ cfg.columns) :
    orderRecords (orderRecords records cfg) cfg = orderRecords records cfg := by
  have hrec : ∀ r : Rec, orderRecord cfg (orderRecord cfg r) = orderRecord cfg r := by
    intro r
    have hget : ∀ c ∈ orderedColumns cfg,
        getD (orderRecord cfg r) c = getD r c := by
      intro c hc
      rw [getD, alookup_orderRecord cfg r hnd hent, if_pos hc]
      rfl
    rw [orderRecord_eq cfg (orderRecord cfg r) hnd hent,
      hget "Enterprise" (List.mem_cons_self _ _),
      show List.map (fun c => (c, getD (orderRecord cfg r) c)) cfg.columns =
          List.map (fun c => (c, getD r c)) cfg.columns from
        List.map_congr_left
          (fun c hc => by rw [hget c (List.mem_cons_of_mem _ hc)])]
    exact (orderRecord_eq cfg r hnd hent).symm
  rw [orderRecords, orderRecords, List.map_map]
  exact List.map_congr_left (fun r _ => hrec r)

/-- C8 witness: idempotence applied at a concrete record list and config. -/
theorem orderRecords_idempotent_witness :
    (["A", "B"] : List String).Nodup ∧
      "Enterprise" ∉ (["A", "B"] : List String) ∧
      orderRecords
          (orderRecords [[("B", "b"), ("Q", "q")]] ⟨["A", "B"], none, none⟩)
          ⟨["A", "B"], none, none⟩ =
        orderRecords [[("B", "b"), ("Q", "q")]] ⟨["A", "B"], none, none⟩ :=
  ⟨by decide, by decide,
    orderRecords_idempotent [[("B", "b"), ("Q", "q")]] _ (by decide) (by decide)⟩

/-! ## Claim C4: provenance resolution from the filename -/

/-- Spec-side: the lowercased substring of the basename before the first
underscore. -/
def lowerPfx (filename : String) : String :=
  strToLower (String.mk ((extractBasename filename).data.takeWhile
    (fun c => decide (¬ (c = '_')))))

theorem idxOfUnderscore_eq_none_iff (l : List Char) :
    idxOfUnderscore l = none ↔ '_' ∉ l := by
  induction l with
  | nil => simp [idxOfUnderscore]
  | cons c cs ih =>
    by_cases h : c = '_'
    · subst h; simp [idxOfUnderscore]
    · simp [idxOfUnderscore, h, ih, Ne.symm h]

theorem take_idx_eq_takeWhile {l : List Char} :
    ∀ {i : Nat}, idxOfUnderscore l = some i →
      l.take i = l.takeWhile (fun c => decide (¬ (c = '_'))) := by
  induction l with
  | nil => intro i h; simp [idxOfUnderscore] at h
  | cons c cs ih =>
    intro i h
    by_cases hc : c = '_'
    · subst hc
      rw [idxOfUnderscore, if_pos rfl] at h
      cases h
      simp [List.takeWhile_cons]
    · rw [idxOfUnderscore, if_neg hc] at h
      rcases Option.map_eq_some'.mp h with ⟨j, hj, rfl⟩
      rw [List.take_succ_cons, List.takeWhile_cons]
      simp [hc, ih hj]

theorem invalidFmtMsg_ne_unknownPfxMsg (a p b : String) :
    invalidFmtMsg a ≠ unknownPfxMsg p b := by
  intro h
  have h1 := congrArg (fun s => s.data.head?) h
  simp only [invalidFmtMsg, unknownPfxMsg, String.data_append,
    List.head?_append] at h1
  simp at h1

/-- C4: `extractEnterprise` resolves the provenance tag. With `b` the
basename of the filename with the `.csv` extension stripped: if `b` has no
underscore the result is the invalid-format error; if it has one and the
lowercased part before the first underscore is a mapping key, the result is
the mapped tag; if that lowercased part is not a mapping key the result is
the unknown-prefix error; and the two error messages are always distinct. -/
theorem extractEnterprise_spec (filename : String) :
    ('_' ∉ (extractBasename filename).data →
        extractEnterprise filename = .error (invalidFmtMsg filename)) ∧
      (∀ t, '_' ∈ (extractBasename filename).data →
        alookup enterpriseMapping (lowerPfx filename) = some t →
        extractEnterprise filename = .ok t) ∧
      ('_' ∈ (extractBasename filename).data →
        alookup enterpriseMapping (lowerPfx filename) = none →
        extractEnterprise filename =
          .error (unknownPfxMsg (lowerPfx filename) filename)) ∧
      (∀ a p b, invalidFmtMsg a ≠ unknownPfxMsg p b) := by
  refine ⟨?_, ?_, ?_, invalidFmtMsg_ne_unknownPfxMsg⟩
  · intro hno
    simp only [extractEnterprise, (idxOfUnderscore_eq_none_iff _).mpr hno]
  · intro t hmem hfound
    cases hidx : idxOfUnderscore (extractBasename filename).data with
    | none =>
      exact absurd ((idxOfUnderscore_eq_none_iff _).mp hidx) (by simp [hmem])
    | some i =>
      have hpfx : strToLower (String.mk ((extractBasename filename).data.take i))
          = lowerPfx filename := by
        rw [take_idx_eq_takeWhile hidx]; rfl
      simp only [extractEnterprise, hidx, hpfx, hfound]
  · intro hmem hnone
    cases hidx : idxOfUnderscore (extractBasename filename).data with
    | none =>
      exact absurd ((idxOfUnderscore_eq_none_iff _).mp hidx) (by simp [hmem])
    | some i =>
      have hpfx : strToLower (String.mk ((extractBasename filename).data.take i))
          = lowerPfx filename := by
        rw [take_idx_eq_takeWhile hidx]; rfl
      simp only [extractEnterprise, hidx, hpfx, hnone]

/-- C4 witness: the three cases at concrete filenames — a known prefix
(case-insensitively) maps, a basename without `_` fails with the
invalid-format error, an unknown prefix fails with the distinct
unknown-prefix error. -/
theorem extractEnterprise_spec_witness :
    ('_' ∈ (extractBasename "GHEC_orgA_data.csv").data ∧
        alookup enterpriseMapping (lowerPfx "GHEC_orgA_data.csv") =
          some "GHEC" ∧
        extractEnterprise "GHEC_orgA_data.csv" = .ok "GHEC") ∧
      ('_' ∉ (extractBasename "nounderscore.csv").data ∧
        extractEnterprise "nounderscore.csv" =
          .error (invalidFmtMsg "nounderscore.csv")) ∧
      ('_' ∈ (extractBasename "zzz_x.csv").data ∧
        alookup enterpriseMapping (lowerPfx "zzz_x.csv") = none ∧
        extractEnterprise "zzz_x.csv" =
          .error (unknownPfxMsg (lowerPfx "zzz_x.csv") "zzz_x.csv")) ∧
      invalidFmtMsg "nounderscore.csv" ≠
        unknownPfxMsg (lowerPfx "zzz_x.csv") "zzz_x.csv" :=
  ⟨⟨by decide, by decide,
      (extractEnterprise_spec "GHEC_orgA_data.csv").2.1 "GHEC" (by decide)
        (by decide)⟩,
    ⟨by decide, (extractEnterprise_spec "nounderscore.csv").1 (by decide)⟩,
    ⟨by decide, by decide,
      (extractEnterprise_spec "zzz_x.csv").2.2.1 (by decide) (by decide)⟩,
    (extractEnterprise_spec "zzz_x.csv").2.2.2 "nounderscore.csv"
      (lowerPfx "zzz_x.csv") "zzz_x.csv"⟩

/-! ## Claim C7: unexpected-column classification and per-file warnings -/

/-- C7: a header is unexpected iff it is in the file's headers but in
neither the canonical column list nor the exclusion list; the unexpected
list keeps the original header order (it is a `filter` of `headers`); the
returned warning list is exactly one string when the unexpected list is
non-empty and empty otherwise; and every warning is that single
unexpected-columns message — in particular the informational note about
present excluded columns (a console message in the source) is never among
the warnings. -/
theorem validateAndFilterColumns_spec (filePath : String)
    (headers : List String) (cfg : ColumnConfig) :
    (∀ h, h ∈ unexpectedColumnsOf headers cfg ↔
        h ∈ headers ∧ h ∉ cfg.columns ∧ h ∉ removalList cfg) ∧
      unexpectedColumnsOf headers cfg =
        headers.filter
          (fun h => decide (h ∉ cfg.columns ∧ h ∉ removalList cfg)) ∧
      (validateAndFilterColumns filePath headers cfg).2 =
        (if unexpectedColumnsOf headers cfg = [] then []
          else [unexpectedColsMsg filePath (unexpectedColumnsOf headers cfg)]) ∧
      ((validateAndFilterColumns filePath headers cfg).2.length =
        if unexpectedColumnsOf headers cfg = [] then 0 else 1) ∧
      (∀ w ∈ (validateAndFilterColumns filePath headers cfg).2,
        w = unexpectedColsMsg filePath (unexpectedColumnsOf headers cfg)) := by
  have hwarn : (validateAndFilterColumns filePath headers cfg).2 =
      (if unexpectedColumnsOf headers cfg = [] then []
        else [unexpectedColsMsg filePath (unexpectedColumnsOf headers cfg)]) := by
    rw [validateAndFilterColumns]
    by_cases he : unexpectedColumnsOf headers cfg = []
    · simp [he]
    · simp [he, List.isEmpty_iff]
  refine ⟨?_, rfl, hwarn, ?_, ?_⟩
  · intro h
    rw [unexpectedColumnsOf, List.mem_filter]
    simp
  · rw [hwarn]
    by_cases he : unexpectedColumnsOf headers cfg = [] <;> simp [he]
  · intro w hw
    rw [hwarn] at hw
    by_cases he : unexpectedColumnsOf headers cfg = []
    · rw [if_pos he] at hw; cases hw
    · rw [if_neg he] at hw
      exact List.mem_singleton.mp hw

/-- C7 witness: a file with one unexpected header (`"Extra"`) and one
excluded header (`"Full_URL"`) gets exactly one warning, and the excluded
header is not unexpected. -/
theorem validateAndFilterColumns_spec_witness :
    ("Extra" ∈ unexpectedColumnsOf ["Org", "Extra", "Full_URL"]
        ⟨["Org"], some ["Full_URL"], none⟩ ↔
      "Extra" ∈ ["Org", "Extra", "Full_URL"] ∧
        "Extra" ∉ (⟨["Org"], some ["Full_URL"], none⟩ : ColumnConfig).columns ∧
        "Extra" ∉ removalList ⟨["Org"], some ["Full_URL"], none⟩) ∧
      ((validateAndFilterColumns "f.csv" ["Org", "Extra", "Full_URL"]
          ⟨["Org"], some ["Full_URL"], none⟩).2.length =
        if unexpectedColumnsOf ["Org", "Extra", "Full_URL"]
            ⟨["Org"], some ["Full_URL"], none⟩ = [] then 0 else 1) ∧
      unexpectedColumnsOf ["Org", "Extra", "Full_URL"]
          ⟨["Org"], some ["Full_URL"], none⟩ = ["Extra"] := by
  obtain ⟨h1, -, -, h4, -⟩ :=
    validateAndFilterColumns_spec "f.csv" ["Org", "Extra", "Full_URL"]
      ⟨["Org"], some ["Full_URL"], none⟩
  exact ⟨h1 "Extra", h4, by decide⟩

/-! ## Claim C2: fail-fast — any per-file failure (or an empty listing)
fails the run and nothing is written -/

/-- Whether an `Except` is a success. -/
def exceptOk {ε α : Type} : Except ε α → Bool
  | .ok _ => true
  | .error _ => false

/-- A file whose processing throws: provenance resolution fails, or the
header read fails, or the record read fails. -/
def fileFails (f : CsvFile) : Bool :=
  !(exceptOk (extractEnterprise f.name)) || !(exceptOk f.headers) ||
    !(exceptOk f.records)

theorem stepFile_snd (cfg : ColumnConfig) (acc : ProcessingResult)
    (f : CsvFile) : (stepFile cfg acc f).2 = fileFails f := by
  rw [stepFile, fileFails]
  cases extractEnterprise f.name with
  | error e => simp [exceptOk]
  | ok ent =>
    cases f.headers with
    | error e => simp [exceptOk]
    | ok hs =>
      cases f.records with
      | error e => simp [exceptOk]
      | ok recs => simp [exceptOk]

theorem processAll_aborts (cfg : ColumnConfig) :
    ∀ (fs : List CsvFile) (acc : ProcessingResult),
      (∃ f ∈ fs, fileFails f = true) → (processAll cfg acc fs).2 = true := by
  intro fs
  induction fs with
  | nil => intro acc h; simp at h
  | cons f fs' ih =>
    intro acc h
    rw [processAll]
    rcases hstep : stepFile cfg acc f with ⟨acc', b⟩
    have hb : b = fileFails f := by
      have hsnd := stepFile_snd cfg acc f
      rw [hstep] at hsnd
      exact hsnd
    subst hb
    by_cases hff : fileFails f = true
    · rw [hff]
    · have hex : ∃ g ∈ fs', fileFails g = true := by
        rcases h with ⟨g, hg, hgf⟩
        rcases List.mem_cons.mp hg with rfl | hg'
        · exact absurd hgf hff
        · exact ⟨g, hg', hgf⟩
      have hfalse : fileFails f = false := by simpa using hff
      rw [hfalse]
      exact ih acc' hex

theorem getCsvFiles_ok_inv {d : InputDir} {csvs : List CsvFile}
    (hg : getCsvFiles d = .ok csvs) : csvs = csvListing d := by
  rw [getCsvFiles] at hg
  by_cases hp : d.present
  · rw [if_neg (by simp [hp])] at hg
    by_cases he : (csvListing d).isEmpty
    · rw [if_pos he] at hg; cases hg
    · rw [if_neg he] at hg
      exact (Except.ok.inj hg).symm
  · rw [if_pos (by simpa using hp)] at hg; cases hg

/-- C2: if the filtered `.csv` listing is empty, or some listed file fails
(provenance error, unreadable headers, unreadable/malformed records), then
the merge result has `success = false` and the orchestrator ends in an
error before anything is written (`processCsvMerge` returns `.error`, never
reaching the write step). -/
theorem merge_failure_aborts_run (d : InputDir) (cfg : ColumnConfig)
    (h : csvListing d = [] ∨ ∃ f ∈ csvListing d, fileFails f = true) :
    (mergeCsvFiles d cfg).success = false ∧
      ∃ e, processCsvMerge d cfg = .error e := by
  have hsucc : (mergeCsvFiles d cfg).success = false := by
    cases hg : getCsvFiles d with
    | error e => simp [mergeCsvFiles, hg]
    | ok csvs =>
      have hcsv := getCsvFiles_ok_inv hg
      subst hcsv
      obtain ⟨f, hf, hff⟩ : ∃ f ∈ csvListing d, fileFails f = true := by
        rcases h with hempty | hex
        · exfalso
          rw [getCsvFiles] at hg
          by_cases hp : d.present
          · rw [if_neg (by simp [hp]),
              if_pos (by simp [hempty, List.isEmpty_iff])] at hg
            cases hg
          · rw [if_pos (by simpa using hp)] at hg; cases hg
        · exact hex
      have habort := processAll_aborts cfg (csvListing d)
        { success := false, records := [], totalFiles := (csvListing d).length,
          totalRecords := 0, errors := [] } ⟨f, hf, hff⟩
      rcases hpa : processAll cfg
        { success := false, records := [], totalFiles := (csvListing d).length,
          totalRecords := 0, errors := [] } (csvListing d) with ⟨res, b⟩
      rw [hpa] at habort
      simp only at habort
      simp only [mergeCsvFiles, hg]
      rw [hpa, habort]
  refine ⟨hsucc, ?_⟩
  rw [processCsvMerge, if_pos (by simp [hsucc])]
  exact ⟨_, rfl⟩

/-- C2 witness: a directory with no `.csv` files, and a directory whose
single CSV file has unreadable records, both fail the merge and error out
before writing. -/
theorem merge_failure_aborts_run_witness :
    ((csvListing ⟨"/in", true, [⟨"notes.txt", .ok [], .ok []⟩]⟩ = [] ∨
        ∃ f ∈ csvListing ⟨"/in", true, [⟨"notes.txt", .ok [], .ok []⟩]⟩,
          fileFails f = true) ∧
      (mergeCsvFiles ⟨"/in", true, [⟨"notes.txt", .ok [], .ok []⟩]⟩
          ⟨["A"], none, none⟩).success = false ∧
      ∃ e, processCsvMerge ⟨"/in", true, [⟨"notes.txt", .ok [], .ok []⟩]⟩
          ⟨["A"], none, none⟩ = .error e) ∧
    ((csvListing ⟨"/in", true,
          [⟨"ghec_a_data.csv", .ok ["A"], .error "read failure"⟩]⟩ = [] ∨
        ∃ f ∈ csvListing ⟨"/in", true,
            [⟨"ghec_a_data.csv", .ok ["A"], .error "read failure"⟩]⟩,
          fileFails f = true) ∧
      (mergeCsvFiles ⟨"/in", true,
          [⟨"ghec_a_data.csv", .ok ["A"], .error "read failure"⟩]⟩
          ⟨["A"], none, none⟩).success = false ∧
      ∃ e, processCsvMerge ⟨"/in", true,
          [⟨"ghec_a_data.csv", .ok ["A"], .error "read failure"⟩]⟩
          ⟨["A"], none, none⟩ = .error e) :=
  ⟨⟨Or.inl (by rfl),
      merge_failure_aborts_run _ ⟨["A"], none, none⟩ (Or.inl (by rfl))⟩,
    ⟨Or.inr (by decide),
      merge_failure_aborts_run _ ⟨["A"], none, none⟩ (Or.inr (by decide))⟩⟩

/-! ## Duplicate-check machinery lemmas -/

/-- What one scan pass contributes to a map entry: `none` stays `none` for
no occurrences, otherwise counts and row lists accumulate. -/
def combineOcc (entry : Option (Nat × List Nat)) (rows : List Nat) :
    Option (Nat × List Nat) :=
  match entry with
  | some (c, rws) => some (c + rows.length, rws ++ rows)
  | none => if rows = [] then none else some (rows.length, rows)

theorem combineOcc_nil (entry : Option (Nat × List Nat)) :
    combineOcc entry [] = entry := by
  cases entry with
  | none => rfl
  | some p => simp [combineOcc]

theorem alookup_vmapUpdate_self (m : VMap) (v : String) (row : Nat) :
    alookup (vmapUpdate m v row) v =
      some (match alookup m v with
        | none => (1, [row])
        | some (c, rws) => (c + 1, rws ++ [row])) := by
  induction m with
  | nil => simp [vmapUpdate, alookup]
  | cons p rest ih =>
    obtain ⟨k, c, rws⟩ := p
    by_cases h : k = v
    · subst h
      simp [vmapUpdate, alookup]
    · simp [vmapUpdate, alookup, h, ih]

theorem alookup_vmapUpdate_ne (m : VMap) {v k : String} (row : Nat)
    (h : k ≠ v) : alookup (vmapUpdate m v row) k = alookup m k := by
  induction m with
  | nil => simp [vmapUpdate, alookup, Ne.symm h]
  | cons p rest ih =>
    obtain ⟨k', c, rws⟩ := p
    by_cases h' : k' = v
    · subst h'
      simp [vmapUpdate, alookup, Ne.symm h]
    · by_cases hk : k' = k <;> simp [vmapUpdate, alookup, h', hk, ih, h]

theorem occRowsFrom_nil (col v : String) (idx : Nat) :
    occRowsFrom col v [] idx = [] := rfl

theorem occRowsFrom_cons (col v : String) (r : Rec) (rs : List Rec)
    (idx : Nat) :
    occRowsFrom col v (r :: rs) idx =
      if isBlank (colValue col r) = false ∧ colValue col r = v then
        (idx + 2) :: occRowsFrom col v rs (idx + 1)
      else occRowsFrom col v rs (idx + 1) := rfl

theorem alookup_buildValueMap (col : String) :
    ∀ (rs : List Rec) (idx : Nat) (m : VMap) (v : String),
      alookup (buildValueMap col rs idx m) v =
        combineOcc (alookup m v) (occRowsFrom col v rs idx) := by
  intro rs
  induction rs with
  | nil =>
    intro idx m v
    rw [buildValueMap, occRowsFrom_nil, combineOcc_nil]
  | cons r rs' ih =>
    intro idx m v
    rw [buildValueMap, occRowsFrom_cons]
    by_cases hb : isBlank (getD r col) = true
    · rw [if_pos hb, ih,
        if_neg (by simp [colValue, hb])]
    · have hb' : isBlank (colValue col r) = false := by
        simpa [colValue] using hb
      rw [if_neg (by simp [hb])]
      by_cases hv : colValue col r = v
      · rw [ih, if_pos ⟨hb', hv⟩]
        have hupd : alookup (vmapUpdate m (getD r col) (idx + 2)) v =
            some (match alookup m v with
              | none => (1, [idx + 2])
              | some (c, rws) => (c + 1, rws ++ [idx + 2])) := by
          have : getD r col = v := hv
          rw [this, alookup_vmapUpdate_self]
        rw [hupd]
        cases he : alookup m v with
        | none =>
          simp only [he, combineOcc]
          rw [if_neg (by simp)]
          simp [Nat.add_comm]
        | some p =>
          obtain ⟨c, rws⟩ := p
          simp only [he, combineOcc, List.length_cons]
          rw [List.append_cons]
          have harr : c + 1 + (occRowsFrom col v rs' (idx + 1)).length =
              c + ((occRowsFrom col v rs' (idx + 1)).length + 1) := by omega
          rw [harr]
          simp
      · rw [ih, if_neg (by simp [hv]),
          @alookup_vmapUpdate_ne m (getD r col) v (idx + 2)
            (fun he => hv he.symm)]

theorem keys_vmapUpdate (m : VMap) (v : String) (row : Nat) :
    (vmapUpdate m v row).map Prod.fst =
      if v ∈ m.map Prod.fst then m.map Prod.fst else m.map Prod.fst ++ [v] := by
  induction m with
  | nil => simp [vmapUpdate]
  | cons p rest ih =>
    obtain ⟨k, c, rws⟩ := p
    by_cases h : k = v
    · subst h
      simp [vmapUpdate]
    · simp only [vmapUpdate, if_neg h, List.map_cons, ih]
      by_cases hm : v ∈ rest.map Prod.fst
      · rw [if_pos hm, if_pos (by simp [hm])]
      · have hnotin : ¬ v ∈ k :: rest.map Prod.fst := by
          simp only [List.mem_cons]
          rintro (he | hm2)
          · exact h he.symm
          · exact hm hm2
        rw [if_neg hm, if_neg hnotin, List.cons_append]

theorem seenVals_nil (col : String) : seenVals col [] = [] := rfl

theorem seenVals_cons (col : String) (r : Rec) (rs : List Rec) :
    seenVals col (r :: rs) =
      if isBlank (colValue col r) = false then
        colValue col r :: seenVals col rs
      else seenVals col rs := by
  rw [seenVals, List.map_cons, List.filter_cons]
  by_cases hb : isBlank (colValue col r) = false
  · rw [if_pos hb]
    rw [decide_eq_true (by simp [hb]), if_pos rfl]
    rfl
  · rw [if_neg hb]
    rw [decide_eq_false (by simpa using hb)]
    simp only [Bool.false_eq_true, if_false]
    rfl

/-- `addKey` is how one scanned value extends the key list of the map. -/
def addKey (ks : List String) (v : String) : List String :=
  if v ∈ ks then ks else ks ++ [v]

theorem keys_buildValueMap (col : String) :
    ∀ (rs : List Rec) (idx : Nat) (m : VMap),
      (buildValueMap col rs idx m).map Prod.fst =
        (seenVals col rs).foldl addKey (m.map Prod.fst) := by
  intro rs
  induction rs with
  | nil => intro idx m; rw [buildValueMap, seenVals_nil, List.foldl_nil]
  | cons r rs' ih =>
    intro idx m
    rw [buildValueMap, seenVals_cons]
    by_cases hb : isBlank (getD r col) = true
    · rw [if_pos hb, ih, if_neg (by simp [colValue, hb])]
    · have hb' : isBlank (colValue col r) = false := by simpa [colValue] using hb
      rw [if_neg (by simp [hb]), ih, if_pos hb', List.foldl_cons]
      congr 1
      rw [keys_vmapUpdate, addKey]
      rfl

theorem firstSeenAux_congr :
    ∀ (vs s₁ s₂ : List String), (∀ x, x ∈ s₁ ↔ x ∈ s₂) →
      firstSeenAux vs s₁ = firstSeenAux vs s₂ := by
  intro vs
  induction vs with
  | nil => intro s₁ s₂ _; rfl
  | cons v vs' ih =>
    intro s₁ s₂ hs
    rw [firstSeenAux, firstSeenAux]
    by_cases h : v ∈ s₁
    · rw [if_pos h, if_pos ((hs v).mp h), ih s₁ s₂ hs]
    · rw [if_neg h, if_neg (fun h2 => h ((hs v).mpr h2))]
      congr 1
      exact ih _ _ (fun x => by
        simp only [List.mem_cons]
        exact or_congr Iff.rfl (hs x))

theorem foldl_addKey_eq_append_firstSeenAux :
    ∀ (vals ks : List String),
      vals.foldl addKey ks = ks ++ firstSeenAux vals ks := by
  intro vals
  induction vals with
  | nil => intro ks; simp [firstSeenAux]
  | cons v vs ih =>
    intro ks
    rw [List.foldl_cons, firstSeenAux]
    by_cases h : v ∈ ks
    · rw [addKey, if_pos h, if_pos h, ih]
    · rw [addKey, if_neg h, if_neg h, ih,
        firstSeenAux_congr vs (ks ++ [v]) (v :: ks)
          (fun x => by simp [List.mem_append, or_comm]),
        List.append_cons]
      simp

theorem mem_firstSeenAux :
    ∀ (vs seen : List String) (x : String),
      x ∈ firstSeenAux vs seen ↔ x ∈ vs ∧ x ∉ seen := by
  intro vs
  induction vs with
  | nil => intro seen x; simp [firstSeenAux]
  | cons v vs' ih =>
    intro seen x
    rw [firstSeenAux]
    by_cases h : v ∈ seen
    · rw [if_pos h, ih]
      simp only [List.mem_cons]
      constructor
      · rintro ⟨hx, hs⟩; exact ⟨Or.inr hx, hs⟩
      · rintro ⟨hv | hx, hs⟩
        · exact absurd (hv ▸ h) hs
        · exact ⟨hx, hs⟩
    · rw [if_neg h, List.mem_cons, ih]
      constructor
      · rintro (rfl | ⟨hx, hs⟩)
        · exact ⟨List.mem_cons_self _ _, h⟩
        · exact ⟨List.mem_cons_of_mem v hx,
            fun hseen => hs (List.mem_cons_of_mem v hseen)⟩
      · rintro ⟨hx, hs⟩
        by_cases hxv : x = v
        · exact Or.inl hxv
        · rcases List.mem_cons.mp hx with rfl | hx'
          · exact absurd rfl hxv
          · exact Or.inr ⟨hx',
              fun hvs => (List.mem_cons.mp hvs).elim hxv hs⟩

theorem mem_firstSeen (l : List String) (x : String) :
    x ∈ firstSeen l ↔ x ∈ l := by
  rw [firstSeen, mem_firstSeenAux]
  simp

theorem nodup_firstSeenAux :
    ∀ (vs seen : List String), (firstSeenAux vs seen).Nodup := by
  intro vs
  induction vs with
  | nil => intro seen; simp [firstSeenAux]
  | cons v vs' ih =>
    intro seen
    rw [firstSeenAux]
    by_cases h : v ∈ seen
    · rw [if_pos h]; exact ih seen
    · rw [if_neg h, List.nodup_cons]
      refine ⟨fun hmem => ?_, ih (v :: seen)⟩
      exact ((mem_firstSeenAux vs' (v :: seen) v).mp hmem).2
        (List.mem_cons_self v seen)

theorem nodup_firstSeen (l : List String) : (firstSeen l).Nodup :=
  nodup_firstSeenAux l []

theorem alookup_ext_of_keys {α : Type} :
    ∀ (l₁ l₂ : List (String × α)),
      l₁.map Prod.fst = l₂.map Prod.fst → (l₁.map Prod.fst).Nodup →
      (∀ k, alookup l₁ k = alookup l₂ k) → l₁ = l₂ := by
  intro l₁
  induction l₁ with
  | nil =>
    intro l₂ hk _ _
    cases l₂ with
    | nil => rfl
    | cons p ps => simp at hk
  | cons p ps ih =>
    intro l₂ hk hnd hl
    cases l₂ with
    | nil => simp at hk
    | cons q qs =>
      obtain ⟨k₁, v₁⟩ := p
      obtain ⟨k₂, v₂⟩ := q
      simp only [List.map_cons, List.cons.injEq] at hk
      obtain ⟨hkeq, hktl⟩ := hk
      subst hkeq
      have hv : v₁ = v₂ := by
        have h := hl k₁
        rw [alookup_cons, alookup_cons, if_pos rfl, if_pos rfl] at h
        exact Option.some.inj h
      subst hv
      simp only [List.map_cons, List.nodup_cons] at hnd
      refine congrArg _ (ih qs hktl hnd.2 (fun k => ?_))
      by_cases hke : k₁ = k
      · subst hke
        rw [alookup_eq_none_of_not_mem_keys hnd.1,
          alookup_eq_none_of_not_mem_keys (hktl ▸ hnd.1)]
      · have h := hl k
        rw [alookup_cons, alookup_cons, if_neg hke, if_neg hke] at h
        exact h

theorem alookup_map_entries {α : Type} (f : String → α) (k : String) :
    ∀ cols : List String,
      alookup (cols.map fun c => (c, f c)) k =
        if k ∈ cols then some (f k) else none := by
  intro cols
  induction cols with
  | nil => simp [alookup]
  | cons c cs ih =>
    rw [List.map_cons, alookup_cons]
    by_cases h : c = k
    · subst h; simp
    · rw [if_neg h, ih]
      simp only [List.mem_cons]
      by_cases hm : k ∈ cs
      · rw [if_pos hm, if_pos (Or.inr hm)]
      · rw [if_neg hm, if_neg (fun hor => hor.elim (fun he => h he.symm) hm)]

theorem occRowsFrom_eq_nil_iff (col v : String) :
    ∀ (rs : List Rec) (idx : Nat),
      occRowsFrom col v rs idx = [] ↔ v ∉ seenVals col rs := by
  intro rs
  induction rs with
  | nil => intro idx; simp [occRowsFrom_nil, seenVals_nil]
  | cons r rs' ih =>
    intro idx
    rw [occRowsFrom_cons, seenVals_cons]
    by_cases hb : isBlank (colValue col r) = false
    · rw [if_pos hb]
      by_cases hv : colValue col r = v
      · rw [if_pos ⟨hb, hv⟩]
        simp [hv]
      · rw [if_neg (by simp [hv]), ih, List.mem_cons]
        constructor
        · intro hnm hor
          exact hor.elim (fun he => hv he.symm) hnm
        · intro hnm hm
          exact hnm (Or.inr hm)
    · rw [if_neg (by simp [hb]), if_neg hb, ih]

/-- The value map computed by the scan, in closed form: one entry per
distinct non-blank value in first-seen order, carrying its occurrence count
and row numbers. -/
theorem buildValueMap_eq (records : List Rec) (col : String) :
    buildValueMap col records 0 [] =
      (firstSeen (seenVals col records)).map
        (fun v => (v, occCount records col v, occRows records col v)) := by
  apply alookup_ext_of_keys
  · rw [keys_buildValueMap]
    simp only [List.map_nil]
    rw [foldl_addKey_eq_append_firstSeenAux, List.nil_append, firstSeen,
      List.map_map]
    symm
    rw [show (Prod.fst ∘ fun v : String =>
        (v, occCount records col v, occRows records col v)) = id from rfl,
      List.map_id]
  · rw [keys_buildValueMap]
    simp only [List.map_nil]
    rw [foldl_addKey_eq_append_firstSeenAux, List.nil_append]
    exact nodup_firstSeenAux _ _
  · intro k
    rw [alookup_buildValueMap, alookup_map_entries]
    simp only [alookup]
    rw [combineOcc]
    by_cases hm : k ∈ firstSeen (seenVals col records)
    · rw [if_pos hm]
      have hne : occRowsFrom col k records 0 ≠ [] := by
        rw [Ne, occRowsFrom_eq_nil_iff]
        simpa using (mem_firstSeen _ _).mp hm
      rw [if_neg hne]
      rfl
    · rw [if_neg hm]
      have hnil : occRowsFrom col k records 0 = [] := by
        rw [occRowsFrom_eq_nil_iff]
        intro hmem
        exact hm ((mem_firstSeen _ _).mpr hmem)
      rw [if_pos hnil]

/-! ## Stable sort lemmas -/

theorem mem_insertByCount (e x : DupEntry) :
    ∀ l, x ∈ insertByCount e l ↔ x = e ∨ x ∈ l := by
  intro l
  induction l with
  | nil => simp [insertByCount]
  | cons y ys ih =>
    rw [insertByCount]
    by_cases h : y.count ≤ e.count
    · rw [if_pos h]
      simp [List.mem_cons]
    · rw [if_neg h]
      simp only [List.mem_cons, ih]
      tauto

theorem sortByCountDesc_nil : sortByCountDesc [] = [] := rfl

theorem sortByCountDesc_cons (a : DupEntry) (l : List DupEntry) :
    sortByCountDesc (a :: l) = insertByCount a (sortByCountDesc l) := rfl

theorem mem_sortByCountDesc (x : DupEntry) :
    ∀ l, x ∈ sortByCountDesc l ↔ x ∈ l := by
  intro l
  induction l with
  | nil => simp [sortByCountDesc_nil]
  | cons a l' ih =>
    rw [sortByCountDesc_cons, mem_insertByCount]
    simp [List.mem_cons, ih]

theorem filter_countEq_insertByCount (n : Nat) (e : DupEntry) :
    ∀ l, (insertByCount e l).filter (fun x => decide (x.count = n)) =
      (if e.count = n then [e] else []) ++
        l.filter (fun x => decide (x.count = n)) := by
  intro l
  induction l with
  | nil =>
    rw [insertByCount, List.filter_cons, List.filter_nil, List.append_nil]
    by_cases h : e.count = n
    · rw [if_pos h, decide_eq_true h, if_pos rfl]
    · rw [if_neg h, decide_eq_false h]
      simp
  | cons x xs ih =>
    rw [insertByCount]
    by_cases h : x.count ≤ e.count
    · rw [if_pos h, List.filter_cons, List.filter_cons]
      by_cases he : e.count = n
      · rw [decide_eq_true he, if_pos he]
        simp
      · rw [decide_eq_false he, if_neg he]
        simp
    · rw [if_neg h, List.filter_cons, ih, List.filter_cons]
      by_cases he : e.count = n
      · have hx : ¬ x.count = n := by omega
        rw [if_pos he, decide_eq_false hx]
        simp
      · rw [if_neg he]
        simp

theorem filter_countEq_sortByCountDesc (n : Nat) :
    ∀ l, (sortByCountDesc l).filter (fun x => decide (x.count = n)) =
      l.filter (fun x => decide (x.count = n)) := by
  intro l
  induction l with
  | nil => rfl
  | cons a l' ih =>
    rw [sortByCountDesc_cons, filter_countEq_insertByCount, ih,
      List.filter_cons]
    by_cases h : a.count = n
    · rw [if_pos h, decide_eq_true h, if_pos rfl]
      rfl
    · rw [if_neg h, decide_eq_false h]
      simp

theorem pairwise_insertByCount (e : DupEntry) :
    ∀ l, l.Pairwise (fun a b => b.count ≤ a.count) →
      (insertByCount e l).Pairwise (fun a b => b.count ≤ a.count) := by
  intro l
  induction l with
  | nil => intro _; simp [insertByCount]
  | cons x xs ih =>
    intro hp
    rw [insertByCount]
    rcases List.pairwise_cons.mp hp with ⟨hx, hxs⟩
    by_cases h : x.count ≤ e.count
    · rw [if_pos h, List.pairwise_cons]
      refine ⟨?_, hp⟩
      intro y hy
      rcases List.mem_cons.mp hy with rfl | hy'
      · exact h
      · exact le_trans (hx y hy') h
    · rw [if_neg h, List.pairwise_cons]
      refine ⟨?_, ih hxs⟩
      intro y hy
      rcases (mem_insertByCount e y xs).mp hy with rfl | hy'
      · omega
      · exact hx y hy'

theorem pairwise_sortByCountDesc :
    ∀ l, (sortByCountDesc l).Pairwise (fun a b => b.count ≤ a.count) := by
  intro l
  induction l with
  | nil => simp [sortByCountDesc_nil]
  | cons a l' ih => exact pairwise_insertByCount a _ ih

/-! ## `checkForDuplicates` in closed form -/

theorem checkForDuplicates_nil (records : List Rec) :
    checkForDuplicates records [] = [] := rfl

theorem checkForDuplicates_cons (records : List Rec) (col : String)
    (rest : List String) :
    checkForDuplicates records (col :: rest) =
      if columnExists records col then
        ⟨col, checkColumn records col⟩ :: checkForDuplicates records rest
      else checkForDuplicates records rest := rfl

/-- The duplicate list of a column, in closed form: the duplicate values in
first-seen order, each with its occurrence data, stably sorted. -/
theorem checkColumn_eq (records : List Rec) (col : String) :
    checkColumn records col =
      sortByCountDesc ((specDupValues records col).map
        (fun v => ⟨v, occCount records col v, occRows records col v⟩)) := by
  rw [checkColumn, buildValueMap_eq, List.filter_map, List.map_map]
  rfl

theorem isBlank_false_of_mem_seenVals {col : String} {records : List Rec}
    {v : String} (h : v ∈ seenVals col records) : isBlank v = false := by
  rw [seenVals] at h
  have h2 := (List.mem_filter.mp h).2
  simpa using h2

theorem mem_seenVals_of_two_le_occCount {records : List Rec} {col v : String}
    (h : 2 ≤ occCount records col v) : v ∈ seenVals col records := by
  by_contra hmem
  rw [occCount, occRows] at h
  rw [← occRowsFrom_eq_nil_iff col v records 0] at hmem
  rw [hmem] at h
  simp at h

theorem mem_specDupValues {records : List Rec} {col v : String} :
    v ∈ specDupValues records col ↔
      v ∈ firstSeen (seenVals col records) ∧ 1 < occCount records col v := by
  rw [specDupValues, List.mem_filter]
  simp

theorem occRowsFrom_length_le_one_of_nodup (col v : String) :
    ∀ (rs : List Rec) (idx : Nat), (seenVals col rs).Nodup →
      (occRowsFrom col v rs idx).length ≤ 1 := by
  intro rs
  induction rs with
  | nil => intro idx _; simp [occRowsFrom_nil]
  | cons r rs' ih =>
    intro idx hnd
    rw [occRowsFrom_cons]
    by_cases hb : isBlank (colValue col r) = false
    · rw [seenVals_cons, if_pos hb, List.nodup_cons] at hnd
      by_cases hv : colValue col r = v
      · rw [if_pos ⟨hb, hv⟩, List.length_cons]
        have hnil : occRowsFrom col v rs' (idx + 1) = [] := by
          rw [occRowsFrom_eq_nil_iff]
          exact hv ▸ hnd.1
        rw [hnil]
        simp
      · rw [if_neg (by simp [hv])]
        exact ih (idx + 1) hnd.2
    · rw [if_neg (by simp [hb])]
      rw [seenVals_cons, if_neg hb] at hnd
      exact ih (idx + 1) hnd

/-! ## Claim C5: the duplicate report for a present column -/

/-- What the duplicate report promises for one checked column `col` that is
present in `records`: `checkForDuplicates` on `[col]` yields exactly one
result, whose entries are exactly the values with at least two non-blank
occurrences, each carrying its occurrence count and its 1-based,
header-offset row numbers (first data record is row 2), sorted by count
descending with ties kept in first-seen order (for each count, the entries
with that count appear in first-seen order of the values). -/
def DupReportOk (records : List Rec) (col : String) : Prop :=
  ∃ dv, checkForDuplicates records [col] = [⟨col, dv⟩] ∧
    (∀ e ∈ dv, 2 ≤ e.count ∧ e.count = occCount records col e.value ∧
      e.rowNumbers = occRows records col e.value) ∧
    (∀ v, v ∈ dv.map DupEntry.value ↔ 2 ≤ occCount records col v) ∧
    List.Pairwise (fun a b => b.count ≤ a.count) dv ∧
    (∀ n, (dv.filter (fun e => decide (e.count = n))).map DupEntry.value =
      (specDupValues records col).filter
        (fun v => decide (occCount records col v = n)))

/-- C5: for every record list and checked column present in the records,
the duplicate report is sound: each value with ≥ 2 non-blank occurrences is
reported with its count and row positions `index + 2`, sorted by count
descending, stable in first-seen order. -/
theorem checkForDuplicates_report (records : List Rec) (col : String)
    (hex : columnExists records col = true) : DupReportOk records col := by
  refine ⟨checkColumn records col, ?_, ?_, ?_, ?_, ?_⟩
  · rw [checkForDuplicates_cons, if_pos hex, checkForDuplicates_nil]
  · intro e he
    rw [checkColumn_eq, mem_sortByCountDesc] at he
    rcases List.mem_map.mp he with ⟨v, hv, rfl⟩
    have hocc := (mem_specDupValues.mp hv).2
    exact ⟨hocc, rfl, rfl⟩
  · intro v
    constructor
    · intro hv
      rcases List.mem_map.mp hv with ⟨e, he, rfl⟩
      rw [checkColumn_eq, mem_sortByCountDesc] at he
      rcases List.mem_map.mp he with ⟨w, hw, rfl⟩
      exact (mem_specDupValues.mp hw).2
    · intro hocc
      have hseen : v ∈ seenVals col records :=
        mem_seenVals_of_two_le_occCount hocc
      have hdup : v ∈ specDupValues records col :=
        mem_specDupValues.mpr ⟨(mem_firstSeen _ _).mpr hseen, hocc⟩
      refine List.mem_map.mpr
        ⟨⟨v, occCount records col v, occRows records col v⟩, ?_, rfl⟩
      rw [checkColumn_eq, mem_sortByCountDesc]
      exact List.mem_map.mpr ⟨v, hdup, rfl⟩
  · rw [checkColumn_eq]
    exact pairwise_sortByCountDesc _
  · intro n
    rw [checkColumn_eq, filter_countEq_sortByCountDesc, List.filter_map,
      List.map_map,
      show ((fun x : DupEntry => decide (x.count = n)) ∘ fun v =>
          (⟨v, occCount records col v, occRows records col v⟩ : DupEntry)) =
        (fun v => decide (occCount records col v = n)) from rfl,
      show (DupEntry.value ∘ fun v =>
          (⟨v, occCount records col v, occRows records col v⟩ : DupEntry)) =
        id from rfl,
      List.map_id]

/-- C5 witness: Scenario C — values `["a", "a", "b"]` in rows 2, 3, 4 give
exactly one entry: value `"a"`, count 2, rows `[2, 3]`. -/
theorem checkForDuplicates_report_witness :
    columnExists [[("Repo_Name", "a")], [("Repo_Name", "a")],
        [("Repo_Name", "b")]] "Repo_Name" = true ∧
      DupReportOk [[("Repo_Name", "a")], [("Repo_Name", "a")],
        [("Repo_Name", "b")]] "Repo_Name" ∧
      checkForDuplicates [[("Repo_Name", "a")], [("Repo_Name", "a")],
          [("Repo_Name", "b")]] ["Repo_Name"] =
        [⟨"Repo_Name", [⟨"a", 2, [2, 3]⟩]⟩] :=
  ⟨by decide, checkForDuplicates_report _ "Repo_Name" (by decide), by decide⟩

/-! ## Claim C6: blank values are never counted -/

theorem mem_checkForDuplicates {records : List Rec} :
    ∀ {cols : List String} {res : DuplicateCheckResult},
      res ∈ checkForDuplicates records cols →
      ∃ col ∈ cols, columnExists records col = true ∧
        res = ⟨col, checkColumn records col⟩ := by
  intro cols
  induction cols with
  | nil => intro res h; rw [checkForDuplicates_nil] at h; cases h
  | cons c cs ih =>
    intro res h
    rw [checkForDuplicates_cons] at h
    by_cases hex : columnExists records c = true
    · rw [if_pos hex] at h
      rcases List.mem_cons.mp h with rfl | h'
      · exact ⟨c, List.mem_cons_self c cs, hex, rfl⟩
      · rcases ih h' with ⟨col, hcol, hex', heq⟩
        exact ⟨col, List.mem_cons_of_mem c hcol, hex', heq⟩
    · rw [if_neg (by simpa using hex)] at h
      rcases ih h with ⟨col, hcol, hex', heq⟩
      exact ⟨col, List.mem_cons_of_mem c hcol, hex', heq⟩

/-- C6: in every duplicate-check result, no reported value is blank or
whitespace-only (blank values are skipped by the scan and never counted as
occurrences: reported counts equal the non-blank occurrence counts), and a
column whose non-blank values are pairwise distinct — e.g. only blanks plus
one unique non-blank value — reports zero duplicate entries. -/
theorem checkForDuplicates_skips_blank (records : List Rec)
    (cols : List String) :
    ∀ res ∈ checkForDuplicates records cols,
      (∀ e ∈ res.duplicateValues, isBlank e.value = false ∧
        e.count = occCount records res.column e.value) ∧
      ((seenVals res.column records).Nodup → res.duplicateValues = []) := by
  intro res hres
  rcases mem_checkForDuplicates hres with ⟨col, _, _, rfl⟩
  constructor
  · intro e he
    rw [checkColumn_eq, mem_sortByCountDesc] at he
    rcases List.mem_map.mp he with ⟨v, hv, rfl⟩
    have hseen : v ∈ seenVals col records :=
      (mem_firstSeen _ _).mp (mem_specDupValues.mp hv).1
    exact ⟨isBlank_false_of_mem_seenVals hseen, rfl⟩
  · intro hnd
    have hspec : specDupValues records col = [] := by
      rw [specDupValues, List.filter_eq_nil_iff]
      intro v hv
      have hle := occRowsFrom_length_le_one_of_nodup col v records 0 hnd
      simp only [decide_eq_true_eq, not_lt]
      rw [occCount, occRows]
      omega
    show checkColumn records col = []
    rw [checkColumn_eq, hspec]
    rfl

/-- C6 witness: a column with two equal non-blank values plus blanks
reports them (all reported values non-blank); and a column holding only
blanks plus one unique value reports zero duplicate entries. -/
theorem checkForDuplicates_skips_blank_witness :
    ((⟨"R", [⟨"a", 2, [2, 3]⟩]⟩ : DuplicateCheckResult) ∈
        checkForDuplicates [[("R", "a")], [("R", "a")], [("R", "")],
          [("R", "  ")]] ["R"] ∧
      ∀ e ∈ (⟨"R", [⟨"a", 2, [2, 3]⟩]⟩ : DuplicateCheckResult).duplicateValues,
        isBlank e.value = false ∧
          e.count = occCount [[("R", "a")], [("R", "a")], [("R", "")],
            [("R", "  ")]] "R" e.value) ∧
    ((⟨"R", []⟩ : DuplicateCheckResult) ∈
        checkForDuplicates [[("R", "")], [("R", "  ")], [("R", "x")]] ["R"] ∧
      (seenVals "R" [[("R", "")], [("R", "  ")], [("R", "x")]]).Nodup ∧
      (⟨"R", []⟩ : DuplicateCheckResult).duplicateValues = []) :=
  ⟨⟨by decide,
      ((checkForDuplicates_skips_blank
        [[("R", "a")], [("R", "a")], [("R", "")], [("R", "  ")]] ["R"])
        _ (by decide)).1⟩,
    ⟨by decide, by decide,
      ((checkForDuplicates_skips_blank
        [[("R", "")], [("R", "  ")], [("R", "x")]] ["R"])
        _ (by decide)).2 (by decide)⟩⟩

/-! ## Claim C10: column existence is decided by the first record alone -/

/-- C10: the columns reported by `checkForDuplicates` are exactly the
checked columns for which `columnExists` holds, and `columnExists` looks
only at the first record: it is `false` for an empty record list and
`false` whenever the first record lacks the key — regardless of later
records. -/
theorem checkForDuplicates_first_record_only (records : List Rec) :
    (∀ cols, (checkForDuplicates records cols).map
        DuplicateCheckResult.column =
      cols.filter (fun c => columnExists records c)) ∧
      (∀ c, columnExists ([] : List Rec) c = false) ∧
      (∀ (r : Rec) (rs : List Rec) (c : String), alookup r c = none →
        columnExists (r :: rs) c = false) := by
  refine ⟨?_, fun c => rfl, ?_⟩
  · intro cols
    induction cols with
    | nil => rfl
    | cons c cs ih =>
      rw [checkForDuplicates_cons, List.filter_cons]
      by_cases hex : columnExists records c = true
      · rw [if_pos hex, hex, if_pos rfl, List.map_cons, ih]
      · have hf : columnExists records c = false := by simpa using hex
        rw [if_neg (by simpa using hex), hf, ih]
        simp
  · intro r rs c h
    show hasKey r c = false
    rw [hasKey, h]
    rfl

/-- C10 witness: the first record lacks column `"B"`, later records contain
it twice with a non-blank value, yet the column is skipped and the report
is empty. -/
theorem checkForDuplicates_first_record_only_witness :
    alookup [("A", "x")] "B" = none ∧
      columnExists [[("A", "x")], [("B", "y")], [("B", "y")]] "B" = false ∧
      (checkForDuplicates [[("A", "x")], [("B", "y")], [("B", "y")]]
          ["B"]).map DuplicateCheckResult.column =
        ["B"].filter
          (fun c => columnExists [[("A", "x")], [("B", "y")], [("B", "y")]] c) ∧
      checkForDuplicates [[("A", "x")], [("B", "y")], [("B", "y")]] ["B"] = [] :=
  ⟨by decide,
    (checkForDuplicates_first_record_only
      [[("A", "x")], [("B", "y")], [("B", "y")]]).2.2 _ [[("B", "y")],
        [("B", "y")]] "B" (by decide),
    (checkForDuplicates_first_record_only
      [[("A", "x")], [("B", "y")], [("B", "y")]]).1 ["B"],
    by decide⟩

end CsvMerge
